import Mathlib

/-!
Verification development for the `argus_shapes` phosphene-shape prediction
package (2018-beyeler-shapes).  The repository distributes the following
modules: `utils` (coordinate conversions, angle differences), `imgproc`
(thresholding, region properties, dice coefficient), `models` (ModelA..ModelD),
`model_selection` (FunctionMinimizer, GridSearchOptimizer, crossval_predict,
crossval_score) and result aggregation (`extract_best_pickle_files`,
`calc_mean_images`).  The Python bodies of these modules are not part of the
checked-in sources here (only the package README and one figure notebook are),
so each operation below is modelled from the specification text, as flagged in
its doc comment.  Machine floats are idealised as `ℚ` (exact arithmetic) or
`ℝ` (for the trigonometric conversions).
-/

namespace ArgusShapes

/-! ## Shared helper: first-encountered argmin over a list

Both the grid-search optimizer and the best-pickle-file selection report the
candidate with the lowest loss or score, breaking ties in favour of the
earliest candidate; the region-property extraction picks the largest connected
region the same way (with the negated size as the value).  We factor this loop
out and prove its characteristic properties once. -/

/-- First-encountered minimiser of `f` over a list: `none` on the empty list,
otherwise the earliest element attaining the least value of `f`. -/
def argminBy {α β : Type*} [LinearOrder β] (f : α → β) : List α → Option α
  | [] => none
  | x :: xs =>
    match argminBy f xs with
    | none => some x
    | some b => if f x ≤ f b then some x else some b

theorem argminBy_mem {α β : Type*} [LinearOrder β] (f : α → β) :
    ∀ (l : List α) (a : α), argminBy f l = some a → a ∈ l := by
  intro l
  induction l with
  | nil => intro a h; simp [argminBy] at h
  | cons x xs ih =>
    intro a h
    simp only [argminBy] at h
    cases hm : argminBy f xs with
    | none =>
      rw [hm] at h
      simp at h
      simp [h]
    | some b =>
      rw [hm] at h
      by_cases hle : f x ≤ f b
      · simp [hle] at h
        simp [h]
      · simp [hle] at h
        exact List.mem_cons_of_mem x (ih a (h ▸ hm))

theorem argminBy_isSome {α β : Type*} [LinearOrder β] (f : α → β)
    (l : List α) (h : l ≠ []) : (argminBy f l).isSome := by
  cases l with
  | nil => exact absurd rfl h
  | cons x xs =>
    simp only [argminBy]
    cases argminBy f xs with
    | none => rfl
    | some b => by_cases hle : f x ≤ f b <;> simp [hle]

theorem argminBy_le {α β : Type*} [LinearOrder β] (f : α → β) :
    ∀ (l : List α) (a : α), argminBy f l = some a → ∀ b ∈ l, f a ≤ f b := by
  intro l
  induction l with
  | nil => intro a h; simp [argminBy] at h
  | cons x xs ih =>
    intro a h b hb
    simp only [argminBy] at h
    cases hm : argminBy f xs with
    | none =>
      rw [hm] at h
      simp at h
      subst h
      rcases List.mem_cons.mp hb with rfl | hbxs
      · exact le_refl _
      · exfalso
        have hne : xs ≠ [] := by intro hnil; rw [hnil] at hbxs; simp at hbxs
        have hs := argminBy_isSome f xs hne
        rw [hm] at hs
        simp at hs
    | some c =>
      rw [hm] at h
      by_cases hle : f x ≤ f c
      · simp [hle] at h
        subst h
        rcases List.mem_cons.mp hb with rfl | hbxs
        · exact le_refl _
        · exact le_trans hle (ih c hm b hbxs)
      · simp [hle] at h
        subst h
        rcases List.mem_cons.mp hb with rfl | hbxs
        · exact le_of_lt (lt_of_not_le hle)
        · exact ih c hm b hbxs

/-- The first-encountered tie-breaking rule: every element strictly before the
returned minimiser has a strictly larger value of `f`. -/
theorem argminBy_first {α β : Type*} [LinearOrder β] (f : α → β) :
    ∀ (l : List α) (a : α), argminBy f l = some a →
      ∃ l₁ l₂, l = l₁ ++ a :: l₂ ∧ ∀ b ∈ l₁, f a < f b := by
  intro l
  induction l with
  | nil => intro a h; simp [argminBy] at h
  | cons x xs ih =>
    intro a h
    simp only [argminBy] at h
    cases hm : argminBy f xs with
    | none =>
      rw [hm] at h
      simp at h
      subst h
      exact ⟨[], xs, rfl, by simp⟩
    | some b =>
      rw [hm] at h
      by_cases hle : f x ≤ f b
      · simp [hle] at h
        subst h
        exact ⟨[], xs, rfl, by simp⟩
      · simp [hle] at h
        subst h
        obtain ⟨l₁, l₂, hsplit, hgt⟩ := ih b hm
        refine ⟨x :: l₁, l₂, by simp [hsplit], ?_⟩
        intro c hc
        rcases List.mem_cons.mp hc with rfl | hc₁
        · exact lt_of_not_le hle
        · exact hgt c hc₁

/-! ## Cross-validation folds (`model_selection.crossval_predict` / `crossval_score`) -/

/-- One behavioural observation row: subject, electrode, drawn phosphene image
(grayscale grid, idealised over `ℚ`). -/
structure Observation where
  subject : ℕ
  electrode : ℕ
  image : List (List ℚ)
deriving DecidableEq

/-- Modelled from the spec: the fold-assignment rule of `crossval_predict` and
`crossval_score` (module `model_selection`, whose body is absent from the
checked-in sources).  The spec requires only that observations are partitioned
by a grouping key into `k` folds and that the assignment is a deterministic
function of the seed; we realise it as a seed-offset residue of the key. -/
def foldIndex (seed k : ℕ) (key : ℕ) : ℕ := (key + seed) % k

/-- Modelled from the spec: the held-out (test) part of fold `i`. -/
def testFold (seed k : ℕ) (key : Observation → ℕ) (i : ℕ)
    (obs : List Observation) : List Observation :=
  obs.filter (fun o => decide (foldIndex seed k (key o) = i))

/-- Modelled from the spec: the training part of fold `i` (all remaining
observations of the subject). -/
def trainFold (seed k : ℕ) (key : Observation → ℕ) (i : ℕ)
    (obs : List Observation) : List Observation :=
  obs.filter (fun o => decide (foldIndex seed k (key o) ≠ i))

/-- Modelled from the spec: `crossval_predict` fits on each training fold and
predicts on the matching held-out fold, yielding one (train, test) split per
fold; `crossval_score` scores the same splits. -/
def crossval_predict (seed k : ℕ) (key : Observation → ℕ)
    (obs : List Observation) : List (List Observation × List Observation) :=
  (List.range k).map (fun i => (trainFold seed k key i obs, testFold seed k key i obs))

/-- C1: for every set of observations of one subject and every grouping key,
the folds produced by `crossval_predict`/`crossval_score` form an exact
partition: every observation lies in exactly one test fold (so the test folds
are pairwise disjoint and their union is the full observation set), each fold
splits the observations into disjoint train and test parts whose union is the
full set, and the fold assignment is a deterministic function of the seed. -/
theorem crossval_folds_partition (seed k : ℕ) (key : Observation → ℕ)
    (obs : List Observation) (hk : 0 < k) :
    (∀ o ∈ obs, ∃ i, i < k ∧ o ∈ testFold seed k key i obs ∧
      ∀ j, o ∈ testFold seed k key j obs → j = i) ∧
    (∀ i, ∀ o ∈ obs, (o ∈ trainFold seed k key i obs ↔ o ∉ testFold seed k key i obs)) ∧
    (∀ i, ∀ o ∈ testFold seed k key i obs, o ∈ obs) ∧
    (∀ i, ∀ o ∈ trainFold seed k key i obs, o ∈ obs) ∧
    (∀ seed₂, seed₂ = seed →
      crossval_predict seed₂ k key obs = crossval_predict seed k key obs) := by
  refine ⟨?_, ?_, ?_, ?_, ?_⟩
  · intro o ho
    refine ⟨foldIndex seed k (key o), Nat.mod_lt _ hk, ?_, ?_⟩
    · simp [testFold, List.mem_filter, ho]
    · intro j hj
      simp [testFold, List.mem_filter] at hj
      exact hj.2.symm
  · intro i o ho
    simp [trainFold, testFold, List.mem_filter, ho]
  · intro i o ho
    exact (List.mem_filter.mp ho).1
  · intro i o ho
    exact (List.mem_filter.mp ho).1
  · intro seed₂ hs
    rw [hs]

/-- A concrete four-observation, two-electrode data set used to exercise the
cross-validation fold invariants. -/
def obsSample : List Observation :=
  [⟨1, 0, [[1]]⟩, ⟨1, 1, [[0]]⟩, ⟨1, 2, [[1]]⟩, ⟨1, 3, [[0]]⟩]

/-- Concrete run of the cross-validation partition invariants: four
observations grouped by electrode into two folds with seed 3. -/
theorem crossval_folds_partition_witness :
    0 < 2 ∧
    ((∀ o ∈ obsSample, ∃ i, i < 2 ∧ o ∈ testFold 3 2 Observation.electrode i obsSample ∧
      ∀ j, o ∈ testFold 3 2 Observation.electrode j obsSample → j = i) ∧
    (∀ i, ∀ o ∈ obsSample, (o ∈ trainFold 3 2 Observation.electrode i obsSample ↔
      o ∉ testFold 3 2 Observation.electrode i obsSample)) ∧
    (∀ i, ∀ o ∈ testFold 3 2 Observation.electrode i obsSample, o ∈ obsSample) ∧
    (∀ i, ∀ o ∈ trainFold 3 2 Observation.electrode i obsSample, o ∈ obsSample) ∧
    (∀ seed₂, seed₂ = 3 →
      crossval_predict seed₂ 2 Observation.electrode obsSample =
        crossval_predict 3 2 Observation.electrode obsSample)) :=
  ⟨by decide, crossval_folds_partition 3 2 Observation.electrode obsSample (by decide)⟩

/-! ## Grid search (`model_selection.GridSearchOptimizer`) -/

/-- Modelled from the spec: the Cartesian product of the declared discrete
value sets of the two searched parameters. -/
def gridCandidates (xs ys : List ℚ) : List (ℚ × ℚ) :=
  xs.flatMap (fun x => ys.map (fun y => (x, y)))

/-- Modelled from the spec: the list of (grid point, loss) evaluations the
grid-search optimizer performs, one per grid point. -/
def gridEvaluations (loss : ℚ × ℚ → ℚ) (xs ys : List ℚ) : List ((ℚ × ℚ) × ℚ) :=
  (gridCandidates xs ys).map (fun p => (p, loss p))

/-- Modelled from the spec: `GridSearchOptimizer` (module `model_selection`,
whose body is absent from the checked-in sources) enumerates the Cartesian
product of the declared discrete value sets, evaluates the loss at every
combination and reports the minimum; `none` only on an empty grid. -/
def GridSearchOptimizer (loss : ℚ × ℚ → ℚ) (xs ys : List ℚ) : Option (ℚ × ℚ) :=
  argminBy loss (gridCandidates xs ys)

theorem gridCandidates_length (xs ys : List ℚ) :
    (gridCandidates xs ys).length = xs.length * ys.length := by
  induction xs with
  | nil => simp [gridCandidates]
  | cons x xs ih =>
    simp only [gridCandidates, List.flatMap_cons, List.length_append,
      List.length_map] at ih ⊢
    rw [ih, List.length_cons]
    ring

theorem mem_gridCandidates (xs ys : List ℚ) (x y : ℚ) (hx : x ∈ xs) (hy : y ∈ ys) :
    (x, y) ∈ gridCandidates xs ys := by
  simp only [gridCandidates, List.mem_flatMap, List.mem_map]
  exact ⟨x, hx, y, hy, rfl⟩

/-- C2: for every declared discrete parameter grid, `GridSearchOptimizer`
evaluates the loss at every element of the Cartesian product of the
per-parameter value sets — exactly N*M evaluations for an N-by-M grid — and
returns a grid point achieving the minimum loss; if the loss has a unique
minimum at a grid point, it returns exactly that point. -/
theorem gridSearch_exhaustive_argmin (loss : ℚ × ℚ → ℚ) (xs ys : List ℚ)
    (hx : xs ≠ []) (hy : ys ≠ []) :
    (gridEvaluations loss xs ys).length = xs.length * ys.length ∧
    (∀ x ∈ xs, ∀ y ∈ ys, ((x, y), loss (x, y)) ∈ gridEvaluations loss xs ys) ∧
    (∃ p, GridSearchOptimizer loss xs ys = some p ∧ p ∈ gridCandidates xs ys ∧
      ∀ q ∈ gridCandidates xs ys, loss p ≤ loss q) ∧
    (∀ pStar ∈ gridCandidates xs ys,
      (∀ q ∈ gridCandidates xs ys, q ≠ pStar → loss pStar < loss q) →
      GridSearchOptimizer loss xs ys = some pStar) := by
  have hne : gridCandidates xs ys ≠ [] := by
    obtain ⟨x, hxm⟩ := List.exists_mem_of_ne_nil xs hx
    obtain ⟨y, hym⟩ := List.exists_mem_of_ne_nil ys hy
    exact List.ne_nil_of_mem (mem_gridCandidates xs ys x y hxm hym)
  refine ⟨?_, ?_, ?_, ?_⟩
  · simpa [gridEvaluations] using gridCandidates_length xs ys
  · intro x hxm y hym
    exact List.mem_map_of_mem _ (mem_gridCandidates xs ys x y hxm hym)
  · have hs := argminBy_isSome loss (gridCandidates xs ys) hne
    obtain ⟨p, hp⟩ := Option.isSome_iff_exists.mp hs
    exact ⟨p, hp, argminBy_mem loss _ p hp, argminBy_le loss _ p hp⟩
  · intro pStar hps huniq
    have hs := argminBy_isSome loss (gridCandidates xs ys) hne
    obtain ⟨p, hp⟩ := Option.isSome_iff_exists.mp hs
    have hpm := argminBy_mem loss _ p hp
    have hple := argminBy_le loss _ p hp pStar hps
    by_cases hpe : p = pStar
    · rw [GridSearchOptimizer, hp, hpe]
    · exact absurd hple (not_le.mpr (huniq p hpm hpe))

/-- Concrete run of the grid-search contract: a 3-by-2 grid whose squared-error
loss has its unique minimum at the grid point (1, 0). -/
theorem gridSearch_exhaustive_argmin_witness :
    ([(0 : ℚ), 1, 2] ≠ []) ∧ (([(0 : ℚ), 1] : List ℚ) ≠ []) ∧
    ((gridEvaluations (fun p => (p.1 - 1)^2 + p.2^2) [0, 1, 2] [0, 1]).length =
      ([(0 : ℚ), 1, 2] : List ℚ).length * ([(0 : ℚ), 1] : List ℚ).length ∧
    (∀ x ∈ [(0 : ℚ), 1, 2], ∀ y ∈ [(0 : ℚ), 1],
      ((x, y), (fun (p : ℚ × ℚ) => (p.1 - 1)^2 + p.2^2) (x, y)) ∈
        gridEvaluations (fun p => (p.1 - 1)^2 + p.2^2) [0, 1, 2] [0, 1]) ∧
    (∃ p, GridSearchOptimizer (fun p => (p.1 - 1)^2 + p.2^2) [0, 1, 2] [0, 1] = some p ∧
      p ∈ gridCandidates [0, 1, 2] [0, 1] ∧
      ∀ q ∈ gridCandidates [0, 1, 2] [0, 1],
        (fun (p : ℚ × ℚ) => (p.1 - 1)^2 + p.2^2) p ≤
          (fun (p : ℚ × ℚ) => (p.1 - 1)^2 + p.2^2) q) ∧
    (∀ pStar ∈ gridCandidates [(0 : ℚ), 1, 2] [(0 : ℚ), 1],
      (∀ q ∈ gridCandidates [(0 : ℚ), 1, 2] [(0 : ℚ), 1], q ≠ pStar →
        (fun (p : ℚ × ℚ) => (p.1 - 1)^2 + p.2^2) pStar <
          (fun (p : ℚ × ℚ) => (p.1 - 1)^2 + p.2^2) q) →
      GridSearchOptimizer (fun p => (p.1 - 1)^2 + p.2^2) [0, 1, 2] [0, 1] = some pStar)) :=
  ⟨by decide, by decide,
    gridSearch_exhaustive_argmin (fun p => (p.1 - 1)^2 + p.2^2) [0, 1, 2] [0, 1]
      (by decide) (by decide)⟩

/-! ## Coordinate conversions (`utils.ret2dva`, `utils.dva2ret`,
`utils.cart2pol`, `utils.pol2cart`) -/

/-- Modelled from the spec: the fixed linear scale factor between retinal
distance (micrometers) and visual-field degrees used by `utils.ret2dva` and
`utils.dva2ret`, whose bodies are absent from the checked-in sources. -/
def retinalScale : ℚ := 280

/-- Modelled from the spec: `utils.ret2dva` converts retinal coordinates to
visual-field coordinates by the fixed scale factor. -/
def ret2dva (p : ℚ × ℚ) : ℚ × ℚ := (p.1 / retinalScale, p.2 / retinalScale)

/-- Modelled from the spec: `utils.dva2ret` converts visual-field coordinates
back to retinal coordinates by the same fixed scale factor. -/
def dva2ret (p : ℚ × ℚ) : ℚ × ℚ := (p.1 * retinalScale, p.2 * retinalScale)

/-- Modelled from the spec: `utils.cart2pol` converts Cartesian to polar
coordinates (radius together with the standard atan2 angle, given by the
complex argument). -/
noncomputable def cart2pol (x y : ℝ) : ℝ × ℝ :=
  (Real.sqrt (x ^ 2 + y ^ 2), Complex.arg ⟨x, y⟩)

/-- Modelled from the spec: `utils.pol2cart` converts polar back to Cartesian
coordinates. -/
noncomputable def pol2cart (r θ : ℝ) : ℝ × ℝ := (r * Real.cos θ, r * Real.sin θ)

/-- C3: `dva2ret` and `ret2dva` are mutual inverses (exactly, in the
idealised rational arithmetic standing for the floating-point tolerance), and
`pol2cart` undoes `cart2pol` on every Cartesian point. -/
theorem coordinate_roundtrips :
    (∀ p : ℚ × ℚ, dva2ret (ret2dva p) = p ∧ ret2dva (dva2ret p) = p) ∧
    (∀ x y : ℝ, pol2cart (cart2pol x y).1 (cart2pol x y).2 = (x, y)) := by
  have hs : (retinalScale : ℚ) ≠ 0 := by norm_num [retinalScale]
  constructor
  · intro p
    constructor
    · simp [dva2ret, ret2dva, div_mul_cancel₀, hs]
    · simp [dva2ret, ret2dva, mul_div_cancel_right₀, hs]
  · intro x y
    have habs : Real.sqrt (x ^ 2 + y ^ 2) = Complex.abs ⟨x, y⟩ := by
      rw [Complex.abs_apply, Complex.normSq_mk]
      congr 1
      ring
    have h1 := Complex.abs_mul_cos_arg (⟨x, y⟩ : ℂ)
    have h2 := Complex.abs_mul_sin_arg (⟨x, y⟩ : ℂ)
    simp only [pol2cart, cart2pol, habs]
    rw [h1, h2]

/-! ## Dice coefficient (`imgproc.dice_coeff`) -/

/-- Number of foreground (true) pixels of a binary image, flattened row-major. -/
def countFg (img : List Bool) : ℕ := (img.filter (fun p => p)).length

/-- Number of pixels set in both binary images (pixel-wise intersection). -/
def countInter (a b : List Bool) : ℕ :=
  ((List.zipWith and a b).filter (fun p => p)).length

/-- Modelled from the spec: `imgproc.dice_coeff` (body absent from the
checked-in sources) computes 2|A∩B|/(|A|+|B|) between two binary phosphene
images and returns the sentinel 0 when both images are empty. -/
def dice_coeff (a b : List Bool) : ℚ :=
  if countFg a + countFg b = 0 then 0
  else 2 * (countInter a b : ℚ) / ((countFg a : ℚ) + (countFg b : ℚ))

theorem countInter_le_left : ∀ a b : List Bool, countInter a b ≤ countFg a := by
  intro a
  induction a with
  | nil => intro b; simp [countInter, countFg]
  | cons x xs ih =>
    intro b
    cases b with
    | nil => simp [countInter, countFg]
    | cons y ys =>
      have h := ih ys
      simp only [countInter, countFg, List.zipWith_cons_cons, List.filter_cons] at h ⊢
      cases x <;> cases y <;> simp <;> omega

theorem countInter_le_right : ∀ a b : List Bool, countInter a b ≤ countFg b := by
  intro a
  induction a with
  | nil => intro b; simp [countInter, countFg]
  | cons x xs ih =>
    intro b
    cases b with
    | nil => simp [countInter, countFg]
    | cons y ys =>
      have h := ih ys
      simp only [countInter, countFg, List.zipWith_cons_cons, List.filter_cons] at h ⊢
      cases x <;> cases y <;> simp <;> omega

theorem countInter_self : ∀ a : List Bool, countInter a a = countFg a := by
  intro a
  induction a with
  | nil => simp [countInter, countFg]
  | cons x xs ih =>
    cases x <;> simp_all [countInter, countFg, List.filter_cons]

/-- C4: for every pair of binary phosphene images, `dice_coeff` equals
2|A∩B|/(|A|+|B|) whenever some pixel is set, always lies in [0, 1], equals 1
on any non-empty image compared with itself, and returns the documented
sentinel 0 — never 1 and never NaN — when both images are empty. -/
theorem dice_coeff_contract (a b : List Bool) :
    (0 ≤ dice_coeff a b ∧ dice_coeff a b ≤ 1) ∧
    (countFg a + countFg b ≠ 0 →
      dice_coeff a b = 2 * (countInter a b : ℚ) / ((countFg a : ℚ) + (countFg b : ℚ))) ∧
    (countFg a ≠ 0 → dice_coeff a a = 1) ∧
    (countFg a = 0 → countFg b = 0 → dice_coeff a b = 0) := by
  refine ⟨?_, ?_, ?_, ?_⟩
  · by_cases h : countFg a + countFg b = 0
    · simp [dice_coeff, h]
    · have hpos : (0 : ℚ) < (countFg a : ℚ) + (countFg b : ℚ) := by
        have : 0 < countFg a + countFg b := Nat.pos_of_ne_zero h
        exact_mod_cast this
      constructor
      · rw [dice_coeff, if_neg h]
        positivity
      · rw [dice_coeff, if_neg h]
        rw [div_le_one hpos]
        have h1 := countInter_le_left a b
        have h2 := countInter_le_right a b
        have : (countInter a b : ℚ) ≤ (countFg a : ℚ) := by exact_mod_cast h1
        have h2q : (countInter a b : ℚ) ≤ (countFg b : ℚ) := by exact_mod_cast h2
        linarith
  · intro h
    rw [dice_coeff, if_neg h]
  · intro h
    have hne : countFg a + countFg a ≠ 0 := by omega
    rw [dice_coeff, if_neg hne, countInter_self]
    have hpos : (0 : ℚ) < (countFg a : ℚ) := by
      have : 0 < countFg a := Nat.pos_of_ne_zero h
      exact_mod_cast this
    field_simp
    ring
  · intro ha hb
    simp [dice_coeff, ha, hb]

/-- Concrete runs of the dice-coefficient contract: a non-empty image scores
1 against itself, and two empty images score the sentinel 0. -/
theorem dice_coeff_contract_witness :
    countFg [true, true, false] ≠ 0 ∧
    dice_coeff [true, true, false] [true, true, false] = 1 ∧
    (countFg [false] = 0 → countFg [false, false] = 0 →
      dice_coeff [false] [false, false] = 0) ∧
    dice_coeff [false] [false, false] = 0 :=
  ⟨by decide,
   (dice_coeff_contract [true, true, false] [true, true, false]).2.2.1 (by decide),
   (dice_coeff_contract [false] [false, false]).2.2.2,
   (dice_coeff_contract [false] [false, false]).2.2.2 (by decide) (by decide)⟩

/-! ## Best-run selection (`argus_shapes.extract_best_pickle_files`) -/

/-- One stored fit-result file in a results directory: its grouping columns
(subject, model name, fold index), the value of the declared score column, and
a file identifier. -/
structure StoredFit where
  subject : ℕ
  modelname : ℕ
  idx_fold : ℕ
  score : ℚ
  file : ℕ
deriving DecidableEq

/-- The grouping key declared by `groupby_cols = [subject, modelname, idx_fold]`
(as in the table-1 notebook). -/
def groupKey (r : StoredFit) : ℕ × ℕ × ℕ := (r.subject, r.modelname, r.idx_fold)

/-- Modelled from the spec: the per-group selection step of
`extract_best_pickle_files` — the stored result with the lowest score in the
group, first-encountered on ties, `none` when the group has no results. -/
def bestInGroup (recs : List StoredFit) (g : ℕ × ℕ × ℕ) : Option StoredFit :=
  argminBy StoredFit.score (recs.filter (fun r => decide (groupKey r = g)))

/-- Modelled from the spec: `argus_shapes.extract_best_pickle_files` (body
absent from the checked-in sources) returns, for each group in turn, the file
whose score is the lowest in that group, skipping groups with no stored
results rather than failing. -/
def extract_best_pickle_files (recs : List StoredFit)
    (groups : List (ℕ × ℕ × ℕ)) : List ℕ :=
  groups.filterMap (fun g => (bestInGroup recs g).map StoredFit.file)

/-- C5: for every stored collection of fit results and every grouping, the
selection returns per group exactly the record whose score is the lowest in
the group, breaking ties by first-encountered order; a group with no results
is skipped (the remaining groups are still processed) rather than failed on,
and the selected file of every non-empty group appears in the output. -/
theorem extract_best_pickle_files_contract (recs : List StoredFit)
    (groups : List (ℕ × ℕ × ℕ)) (g : ℕ × ℕ × ℕ) :
    (∀ grp, recs.filter (fun r => decide (groupKey r = grp)) ≠ [] → ∃ r,
      bestInGroup recs grp = some r ∧ groupKey r = grp ∧ r ∈ recs ∧
      (∀ r₂ ∈ recs, groupKey r₂ = grp → r.score ≤ r₂.score) ∧
      (∃ l₁ l₂, recs.filter (fun r₂ => decide (groupKey r₂ = grp)) = l₁ ++ r :: l₂ ∧
        ∀ r₂ ∈ l₁, r.score < r₂.score)) ∧
    (recs.filter (fun r => decide (groupKey r = g)) = [] →
      extract_best_pickle_files recs (g :: groups) =
        extract_best_pickle_files recs groups) ∧
    (∀ r, bestInGroup recs g = some r →
      r.file ∈ extract_best_pickle_files recs (g :: groups)) := by
  refine ⟨?_, ?_, ?_⟩
  · intro grp hne
    have hs := argminBy_isSome StoredFit.score _ hne
    obtain ⟨r, hr⟩ := Option.isSome_iff_exists.mp hs
    have hmem := argminBy_mem StoredFit.score _ r hr
    have hmf := List.mem_filter.mp hmem
    refine ⟨r, hr, by simpa using hmf.2, hmf.1, ?_, ?_⟩
    · intro r₂ hr₂ hkey
      exact argminBy_le StoredFit.score _ r hr r₂
        (List.mem_filter.mpr ⟨hr₂, by simpa using hkey⟩)
    · exact argminBy_first StoredFit.score _ r hr
  · intro hempty
    have hnone : bestInGroup recs g = none := by
      rw [bestInGroup, hempty]
      rfl
    simp [extract_best_pickle_files, hnone]
  · intro r hr
    simp [extract_best_pickle_files, hr]

/-- The synthetic store from the spec: one group holding three fit results
with known scores [0.5, 0.2, 0.8] (recorded in tenths, i.e. 5, 2 and 8, to
keep kernel evaluation of the witness cheap) under files 10, 20 and 30. -/
def storeSample : List StoredFit :=
  [⟨1, 1, 1, 5, 10⟩, ⟨1, 1, 1, 2, 20⟩, ⟨1, 1, 1, 8, 30⟩]

/-- Concrete run of the best-file selection: on the synthetic store with
scores [0.5, 0.2, 0.8] the file with score 0.2 is selected, and an unmatched
group is skipped. -/
theorem extract_best_pickle_files_contract_witness :
    (storeSample.filter (fun r => decide (groupKey r = (1, 1, 1))) ≠ []) ∧
    (∃ r, bestInGroup storeSample (1, 1, 1) = some r ∧ groupKey r = (1, 1, 1) ∧
      r ∈ storeSample ∧
      (∀ r₂ ∈ storeSample, groupKey r₂ = (1, 1, 1) → r.score ≤ r₂.score) ∧
      (∃ l₁ l₂, storeSample.filter (fun r₂ => decide (groupKey r₂ = (1, 1, 1))) =
          l₁ ++ r :: l₂ ∧ ∀ r₂ ∈ l₁, r.score < r₂.score)) ∧
    bestInGroup storeSample (1, 1, 1) = some ⟨1, 1, 1, 2, 20⟩ ∧
    (20 ∈ extract_best_pickle_files storeSample [(1, 1, 1)]) ∧
    (storeSample.filter (fun r => decide (groupKey r = (9, 9, 9))) = [] →
      extract_best_pickle_files storeSample ((9, 9, 9) :: [(1, 1, 1)]) =
        extract_best_pickle_files storeSample [(1, 1, 1)]) :=
  ⟨by decide,
   (extract_best_pickle_files_contract storeSample [] (1, 1, 1)).1 (1, 1, 1) (by decide),
   by decide,
   (extract_best_pickle_files_contract storeSample [] (1, 1, 1)).2.2
     ⟨1, 1, 1, 2, 20⟩ (by decide),
   (extract_best_pickle_files_contract storeSample [(1, 1, 1)] (9, 9, 9)).2.1⟩

/-! ## Region properties (`imgproc.get_region_props`) -/

/-- A pixel coordinate (row, column). -/
abbrev Pixel : Type := ℕ × ℕ

/-- The row-major list of foreground pixel coordinates of a binary image. -/
def fgList (img : List (List Bool)) : List Pixel :=
  img.enum.flatMap (fun ir =>
    ir.2.enum.filterMap (fun jc => if jc.2 then some (ir.1, jc.1) else none))

/-- Foreground pixels of a binary image, as a set. -/
def foregroundPixels (img : List (List Bool)) : Finset Pixel :=
  (fgList img).toFinset

/-- Four-connectivity of grid pixels. -/
def adjacentPixels (p q : Pixel) : Bool :=
  (p.1 == q.1 && (p.2 + 1 == q.2 || q.2 + 1 == p.2)) ||
  (p.2 == q.2 && (p.1 + 1 == q.1 || q.1 + 1 == p.1))

/-- One step of region growing: add every foreground pixel adjacent to the
current region. -/
def growRegion (fg s : Finset Pixel) : Finset Pixel :=
  s ∪ fg.filter (fun q => ∃ p ∈ s, adjacentPixels p q = true)

/-- Iterated region growing (the flood fill saturates after at most `|fg|`
steps, the fuel used below). -/
def reachRegion (fg : Finset Pixel) : ℕ → Finset Pixel → Finset Pixel
  | 0, s => s
  | n + 1, s => reachRegion fg n (growRegion fg s)

/-- The connected foreground region containing pixel `p`. -/
def pixelComponent (img : List (List Bool)) (p : Pixel) : Finset Pixel :=
  reachRegion (foregroundPixels img) (foregroundPixels img).card {p}

/-- The connected foreground regions of the image, one per foreground pixel
(a region is listed once per pixel it contains; this does not affect which
region is largest). -/
def componentsOf (img : List (List Bool)) : List (Finset Pixel) :=
  (fgList img).map (pixelComponent img)

/-- Shape descriptors of one region: area, centroid, and the second central
moments, which determine the orientation (half the atan2 angle of
(2 mu11, mu20 - mu02)) and the eccentricity/elongation of the region. -/
structure RegionProps where
  area : ℕ
  centroid : ℚ × ℚ
  mu20 : ℚ
  mu11 : ℚ
  mu02 : ℚ
deriving DecidableEq

/-- Descriptors of a pixel region. -/
def regionProps (c : Finset Pixel) : RegionProps :=
  let n : ℚ := (c.card : ℚ)
  let cx : ℚ := c.sum (fun p => (p.1 : ℚ)) / n
  let cy : ℚ := c.sum (fun p => (p.2 : ℚ)) / n
  { area := c.card
    centroid := (cx, cy)
    mu20 := c.sum (fun p => ((p.1 : ℚ) - cx) ^ 2)
    mu11 := c.sum (fun p => ((p.1 : ℚ) - cx) * ((p.2 : ℚ) - cy))
    mu02 := c.sum (fun p => ((p.2 : ℚ) - cy) ^ 2) }

/-- Modelled from the spec: `imgproc.get_region_props` (body absent from the
checked-in sources) computes the shape descriptors of the single largest
connected foreground region — ignoring smaller disconnected regions — and
returns the null sentinel `none`, not an error, when the image has no
foreground pixels. -/
def get_region_props (img : List (List Bool)) : Option RegionProps :=
  match argminBy (fun c : Finset Pixel => -(c.card : ℤ)) (componentsOf img) with
  | none => none
  | some c => some (regionProps c)

theorem reachRegion_subset (fg : Finset Pixel) :
    ∀ (n : ℕ) (s : Finset Pixel), s ⊆ fg → reachRegion fg n s ⊆ fg := by
  intro n
  induction n with
  | zero => intro s hs; exact hs
  | succ n ih =>
    intro s hs
    refine ih (growRegion fg s) ?_
    intro q hq
    rcases Finset.mem_union.mp hq with h | h
    · exact hs h
    · exact (Finset.mem_filter.mp h).1

theorem pixelComponent_subset (img : List (List Bool)) (p : Pixel)
    (hp : p ∈ foregroundPixels img) :
    pixelComponent img p ⊆ foregroundPixels img := by
  refine reachRegion_subset _ _ _ ?_
  intro q hq
  rw [Finset.mem_singleton] at hq
  subst hq
  exact hp

/-- C6: on a binary image with no foreground pixels, `get_region_props`
returns the well-defined null sentinel `none` instead of raising; on an image
with foreground, it returns the descriptors of a single connected foreground
region whose size is maximal among all connected regions (smaller disconnected
regions are ignored) and whose pixels all lie in the foreground. -/
theorem get_region_props_contract (img : List (List Bool)) :
    (foregroundPixels img = ∅ → get_region_props img = none) ∧
    (foregroundPixels img ≠ ∅ → ∃ c, c ∈ componentsOf img ∧
      get_region_props img = some (regionProps c) ∧ c ⊆ foregroundPixels img ∧
      ∀ c₂ ∈ componentsOf img, c₂.card ≤ c.card) := by
  constructor
  · intro h
    have hnil : fgList img = [] := by
      rw [foregroundPixels] at h
      exact List.toFinset_eq_empty_iff _ |>.mp h
    rw [get_region_props, componentsOf, hnil]
    rfl
  · intro h
    have hnil : fgList img ≠ [] := by
      intro hn
      exact h (by rw [foregroundPixels, hn]; rfl)
    have hlist : componentsOf img ≠ [] := by
      rw [componentsOf]
      intro hn
      exact hnil (List.map_eq_nil_iff.mp hn)
    have hs := argminBy_isSome (fun c : Finset Pixel => -(c.card : ℤ)) _ hlist
    obtain ⟨c, hc⟩ := Option.isSome_iff_exists.mp hs
    have hcm : c ∈ componentsOf img := argminBy_mem _ _ c hc
    obtain ⟨p, hp, hpc⟩ := List.mem_map.mp hcm
    refine ⟨c, hcm, ?_, ?_, ?_⟩
    · rw [get_region_props, hc]
    · rw [← hpc]
      exact pixelComponent_subset img p (List.mem_toFinset.mpr hp)
    · intro c₂ hc₂
      have hle := argminBy_le (fun c : Finset Pixel => -(c.card : ℤ)) _ c hc c₂ hc₂
      simp only [neg_le_neg_iff] at hle
      exact_mod_cast hle

/-- Concrete runs of the region-property contract: the all-background image
yields the null sentinel, and an image with foreground yields the descriptors
of a largest connected region. -/
theorem get_region_props_contract_witness :
    (foregroundPixels [[false, false]] = ∅ →
      get_region_props [[false, false]] = none) ∧
    get_region_props [[false, false]] = none ∧
    (foregroundPixels [[true, true], [false, false]] ≠ ∅) ∧
    (∃ c, c ∈ componentsOf [[true, true], [false, false]] ∧
      get_region_props [[true, true], [false, false]] = some (regionProps c) ∧
      c ⊆ foregroundPixels [[true, true], [false, false]] ∧
      ∀ c₂ ∈ componentsOf [[true, true], [false, false]], c₂.card ≤ c.card) :=
  ⟨(get_region_props_contract [[false, false]]).1,
   (get_region_props_contract [[false, false]]).1 (by decide),
   by decide,
   (get_region_props_contract [[true, true], [false, false]]).2 (by decide)⟩

/-! ## Mean images (`argus_shapes.calc_mean_images`) -/

/-- One row to aggregate: the grouping column (electrode), the image, and a
scalar field. -/
structure MeanRow where
  electrode : ℕ
  image : List (List ℚ)
  scalar : ℚ
deriving DecidableEq

/-- The shape of an image: the list of its row lengths. -/
def imgShape (img : List (List ℚ)) : List ℕ := img.map List.length

/-- Pixel-wise sum of two images of the same shape. -/
def addImage (a b : List (List ℚ)) : List (List ℚ) :=
  List.zipWith (fun ra rb => List.zipWith (· + ·) ra rb) a b

/-- Pixel-wise mean of a non-empty batch of same-shaped images. -/
def meanImage (imgs : List (List (List ℚ))) : List (List ℚ) :=
  match imgs with
  | [] => []
  | i :: rest =>
    (rest.foldl addImage i).map
      (fun row => row.map (fun v => v / ((rest.length + 1 : ℕ) : ℚ)))

/-- Arithmetic mean of a scalar column. -/
def meanScalar (xs : List ℚ) : ℚ := xs.sum / ((xs.length : ℕ) : ℚ)

/-- One aggregated output row of `calc_mean_images`. -/
structure GroupMean where
  electrode : ℕ
  image : List (List ℚ)
  scalar : ℚ
deriving DecidableEq

/-- Modelled from the spec: `argus_shapes.calc_mean_images` (body absent from
the checked-in sources; the table-1 notebook calls it) groups rows by the
declared columns, averages images pixel-wise and scalar fields arithmetically,
and fails with a shape-mismatch error — never silently coercing shapes —
whenever two images within one group have different shapes.  Groups without
rows contribute nothing. -/
def calc_mean_images (rows : List MeanRow) : List ℕ → Except String (List GroupMean)
  | [] => Except.ok []
  | g :: gs =>
    match rows.filter (fun r => decide (r.electrode = g)) with
    | [] => calc_mean_images rows gs
    | r :: rest =>
      if rest.all (fun r₂ => decide (imgShape r₂.image = imgShape r.image)) then
        match calc_mean_images rows gs with
        | Except.ok l =>
          Except.ok (⟨g, meanImage ((r :: rest).map MeanRow.image),
            meanScalar ((r :: rest).map MeanRow.scalar)⟩ :: l)
        | Except.error e => Except.error e
      else Except.error "image shape mismatch in group"

/-- C7: `calc_mean_images` returns a shape-mismatch error whenever two images
within one group have different shapes (it never silently coerces shapes);
when all images within each group share one shape, it returns per-group
pixel-wise mean images and arithmetic means of the scalar field. -/
theorem calc_mean_images_contract (rows : List MeanRow) (groups : List ℕ) :
    ((∃ g ∈ groups, ∃ r ∈ rows, ∃ r₂ ∈ rows, r.electrode = g ∧ r₂.electrode = g ∧
        imgShape r.image ≠ imgShape r₂.image) →
      ∃ e, calc_mean_images rows groups = Except.error e) ∧
    ((∀ g ∈ groups, ∀ r ∈ rows, ∀ r₂ ∈ rows, r.electrode = g → r₂.electrode = g →
        imgShape r.image = imgShape r₂.image) →
      ∃ l, calc_mean_images rows groups = Except.ok l ∧
        ∀ g ∈ groups, ∀ r ∈ rows, r.electrode = g →
          (⟨g,
            meanImage ((rows.filter (fun r₂ => decide (r₂.electrode = g))).map MeanRow.image),
            meanScalar ((rows.filter (fun r₂ => decide (r₂.electrode = g))).map MeanRow.scalar)⟩ :
              GroupMean) ∈ l) := by
  induction groups with
  | nil =>
    constructor
    · rintro ⟨g, hg, -⟩
      exact absurd hg (List.not_mem_nil g)
    · intro _
      exact ⟨[], rfl, fun g hg => absurd hg (List.not_mem_nil g)⟩
  | cons g gs ih =>
    constructor
    · rintro ⟨g₀, hg₀, r, hr, r₂, hr₂, hre, hr₂e, hne⟩
      rcases List.mem_cons.mp hg₀ with rfl | hg₀gs
      · -- the mismatching pair sits in the group handled first
        have hrf : r ∈ rows.filter (fun r₃ => decide (r₃.electrode = g₀)) :=
          List.mem_filter.mpr ⟨hr, by simpa using hre⟩
        have hr₂f : r₂ ∈ rows.filter (fun r₃ => decide (r₃.electrode = g₀)) :=
          List.mem_filter.mpr ⟨hr₂, by simpa using hr₂e⟩
        simp only [calc_mean_images]
        cases hfil : rows.filter (fun r₃ => decide (r₃.electrode = g₀)) with
        | nil => rw [hfil] at hrf; exact absurd hrf (List.not_mem_nil r)
        | cons r₀ rest =>
          rw [hfil] at hrf hr₂f
          have hall : ¬ rest.all (fun r₃ => decide (imgShape r₃.image = imgShape r₀.image)) := by
            intro hall
            have hshape : ∀ r₃ ∈ r₀ :: rest, imgShape r₃.image = imgShape r₀.image := by
              intro r₃ hr₃
              rcases List.mem_cons.mp hr₃ with rfl | hr₃r
              · rfl
              · simpa using List.all_eq_true.mp hall r₃ hr₃r
            exact hne ((hshape r hrf).trans (hshape r₂ hr₂f).symm)
          rw [Bool.not_eq_true] at hall
          exact ⟨"image shape mismatch in group", by simp [hall]⟩
      · -- the mismatching pair sits in a later group: the error propagates
        obtain ⟨e, he⟩ := ih.1 ⟨g₀, hg₀gs, r, hr, r₂, hr₂, hre, hr₂e, hne⟩
        simp only [calc_mean_images]
        cases hfil : rows.filter (fun r₃ => decide (r₃.electrode = g)) with
        | nil => exact ⟨e, he⟩
        | cons r₀ rest =>
          by_cases hall : rest.all (fun r₃ => decide (imgShape r₃.image = imgShape r₀.image))
          · exact ⟨e, by simp [hall, he]⟩
          · rw [Bool.not_eq_true] at hall
            exact ⟨"image shape mismatch in group", by simp [hall]⟩
    · intro huni
      have hgs : ∀ g₂ ∈ gs, ∀ r ∈ rows, ∀ r₂ ∈ rows, r.electrode = g₂ →
          r₂.electrode = g₂ → imgShape r.image = imgShape r₂.image :=
        fun g₂ hg₂ => huni g₂ (List.mem_cons_of_mem g hg₂)
      obtain ⟨l, hl, hmem⟩ := ih.2 hgs
      simp only [calc_mean_images]
      cases hfil : rows.filter (fun r₃ => decide (r₃.electrode = g)) with
      | nil =>
        refine ⟨l, hl, ?_⟩
        intro g₂ hg₂ r hr hre
        rcases List.mem_cons.mp hg₂ with rfl | hg₂gs
        · exfalso
          have : r ∈ rows.filter (fun r₃ => decide (r₃.electrode = g₂)) :=
            List.mem_filter.mpr ⟨hr, by simpa using hre⟩
          rw [hfil] at this
          exact absurd this (List.not_mem_nil r)
        · exact hmem g₂ hg₂gs r hr hre
      | cons r₀ rest =>
        have hr₀f : r₀ ∈ rows.filter (fun r₃ => decide (r₃.electrode = g)) := by
          rw [hfil]; exact List.mem_cons_self r₀ rest
        have hr₀mem := List.mem_filter.mp hr₀f
        have hr₀e : r₀.electrode = g := by simpa using hr₀mem.2
        have hall : rest.all (fun r₃ => decide (imgShape r₃.image = imgShape r₀.image)) := by
          rw [List.all_eq_true]
          intro r₃ hr₃
          have hr₃f : r₃ ∈ rows.filter (fun r₄ => decide (r₄.electrode = g)) := by
            rw [hfil]; exact List.mem_cons_of_mem r₀ hr₃
          have hr₃mem := List.mem_filter.mp hr₃f
          have hr₃e : r₃.electrode = g := by simpa using hr₃mem.2
          simpa using huni g (List.mem_cons_self g gs) r₃ hr₃mem.1 r₀ hr₀mem.1 hr₃e hr₀e
        refine ⟨⟨g, meanImage ((r₀ :: rest).map MeanRow.image),
          meanScalar ((r₀ :: rest).map MeanRow.scalar)⟩ :: l, ?_, ?_⟩
        · simp [hall, hl]
        · intro g₂ hg₂ r hr hre
          rcases List.mem_cons.mp hg₂ with rfl | hg₂gs
          · rw [hfil]
            exact List.mem_cons_self _ _
          · exact List.mem_cons_of_mem _ (hmem g₂ hg₂gs r hr hre)

/-- Concrete runs of the mean-image aggregation: a group holding a 1x2 and a
1x1 image fails with a shape-mismatch error, while two same-shaped rows
aggregate to their pixel-wise mean. -/
theorem calc_mean_images_contract_witness :
    (∃ e, calc_mean_images [⟨1, [[1, 2]], 0⟩, ⟨1, [[3]], 0⟩] [1] = Except.error e) ∧
    (∃ l, calc_mean_images [⟨1, [[1, 2]], 1⟩, ⟨1, [[3, 4]], 2⟩] [1] = Except.ok l ∧
      ∀ g ∈ [1], ∀ r ∈ [(⟨1, [[1, 2]], 1⟩ : MeanRow), ⟨1, [[3, 4]], 2⟩], r.electrode = g →
        (⟨g,
          meanImage ((([(⟨1, [[1, 2]], 1⟩ : MeanRow), ⟨1, [[3, 4]], 2⟩].filter
            (fun r₂ => decide (r₂.electrode = g))).map MeanRow.image)),
          meanScalar ((([(⟨1, [[1, 2]], 1⟩ : MeanRow), ⟨1, [[3, 4]], 2⟩].filter
            (fun r₂ => decide (r₂.electrode = g))).map MeanRow.scalar))⟩ :
            GroupMean) ∈ l) :=
  ⟨(calc_mean_images_contract [⟨1, [[1, 2]], 0⟩, ⟨1, [[3]], 0⟩] [1]).1
      ⟨1, by decide, ⟨1, [[1, 2]], 0⟩, by decide, ⟨1, [[3]], 0⟩, by decide,
        rfl, rfl, by decide⟩,
   (calc_mean_images_contract [⟨1, [[1, 2]], 1⟩, ⟨1, [[3, 4]], 2⟩] [1]).2 (by decide)⟩

/-! ## Function minimization (`model_selection.FunctionMinimizer`) -/

/-- Result of one minimisation run: the best-found parameters, their loss, and
whether the run met the convergence tolerance within its iteration budget. -/
structure MinimizeResult (P : Type) where
  params : P
  loss : ℚ
  converged : Bool
deriving DecidableEq

/-- The candidate parameter vectors one run evaluates: the initial guess
followed by the proposal of each of the `budget` iterations. -/
def minimizerCandidates {P : Type} (init : P) (propose : ℕ → P) (budget : ℕ) : List P :=
  init :: (List.range budget).map propose

/-- Modelled from the spec: `model_selection.FunctionMinimizer` (body absent
from the checked-in sources) performs derivative-free minimisation from an
initial guess under an iteration budget, tracking the best-found-so-far
parameters; it terminates on the convergence tolerance or on budget
exhaustion, and in the latter case reports non-convergence while still
carrying the best-found-so-far parameters, rather than raising. -/
def FunctionMinimizer {P : Type} (loss : P → ℚ) (init : P) (propose : ℕ → P)
    (budget : ℕ) (tol : ℚ) : MinimizeResult P :=
  let best := (argminBy loss (minimizerCandidates init propose budget)).getD init
  ⟨best, loss best, decide (loss best ≤ tol)⟩

/-- Modelled from the spec: the cross-validation driver fits one fold after
another with the function minimizer, recording the result of every fold —
including non-converged ones, whose flag it keeps — instead of aborting. -/
def crossvalFitFolds {P : Type} (foldLosses : List (P → ℚ)) (init : P)
    (propose : ℕ → P) (budget : ℕ) (tol : ℚ) : List (MinimizeResult P) :=
  foldLosses.map (fun L => FunctionMinimizer L init propose budget tol)

theorem functionMinimizer_best {P : Type} (loss : P → ℚ) (init : P)
    (propose : ℕ → P) (budget : ℕ) (tol : ℚ) :
    (FunctionMinimizer loss init propose budget tol).params ∈
        minimizerCandidates init propose budget ∧
      (∀ c ∈ minimizerCandidates init propose budget,
        loss (FunctionMinimizer loss init propose budget tol).params ≤ loss c) := by
  have hne : minimizerCandidates init propose budget ≠ [] := by
    simp [minimizerCandidates]
  have hs := argminBy_isSome loss _ hne
  obtain ⟨b, hb⟩ := Option.isSome_iff_exists.mp hs
  have hparams : (FunctionMinimizer loss init propose budget tol).params = b := by
    simp [FunctionMinimizer, hb]
  rw [hparams]
  exact ⟨argminBy_mem loss _ b hb, argminBy_le loss _ b hb⟩

/-- C8: whenever `FunctionMinimizer` exhausts its budget without meeting the
convergence tolerance, it reports the non-convergence (converged = false means
exactly that the best loss misses the tolerance) in a result that still
carries the best-found-so-far parameters — the minimum over every candidate it
evaluated — and the cross-validation driver records that fold result and one
result per remaining fold instead of aborting the run. -/
theorem functionMinimizer_nonconvergence {P : Type} (loss : P → ℚ) (init : P)
    (propose : ℕ → P) (budget : ℕ) (tol : ℚ) (foldLosses : List (P → ℚ))
    (hnc : (FunctionMinimizer loss init propose budget tol).converged = false) :
    (FunctionMinimizer loss init propose budget tol).params ∈
      minimizerCandidates init propose budget ∧
    (∀ c ∈ minimizerCandidates init propose budget,
      (FunctionMinimizer loss init propose budget tol).loss ≤ loss c) ∧
    (FunctionMinimizer loss init propose budget tol).loss =
      loss (FunctionMinimizer loss init propose budget tol).params ∧
    tol < (FunctionMinimizer loss init propose budget tol).loss ∧
    (crossvalFitFolds (loss :: foldLosses) init propose budget tol).length =
      foldLosses.length + 1 ∧
    FunctionMinimizer loss init propose budget tol ∈
      crossvalFitFolds (loss :: foldLosses) init propose budget tol := by
  obtain ⟨hmem, hle⟩ := functionMinimizer_best loss init propose budget tol
  have hloss : (FunctionMinimizer loss init propose budget tol).loss =
      loss (FunctionMinimizer loss init propose budget tol).params := by
    simp [FunctionMinimizer]
  refine ⟨hmem, ?_, hloss, ?_, ?_, ?_⟩
  · intro c hc
    rw [hloss]
    exact hle c hc
  · have : ¬ ((FunctionMinimizer loss init propose budget tol).loss ≤ tol) := by
      intro hle₂
      have hconv : (FunctionMinimizer loss init propose budget tol).converged = true := by
        simp only [FunctionMinimizer] at hle₂ ⊢
        exact decide_eq_true hle₂
      rw [hnc] at hconv
      exact Bool.false_ne_true hconv
    exact lt_of_not_le this
  · simp [crossvalFitFolds]
  · exact List.mem_map_of_mem _ (List.mem_cons_self _ _)

/-- Concrete run of the non-convergence contract: with tolerance 0 and a loss
bounded below by 1, the minimizer exhausts its budget without converging yet
still reports the best-found parameters, and the fold driver keeps going. -/
theorem functionMinimizer_nonconvergence_witness :
    ((FunctionMinimizer (fun x : ℚ => if x = 0 then 1 else 2) 5 (fun i => if i = 0 then 0 else 5)
        1 0).converged = false) ∧
    ((FunctionMinimizer (fun x : ℚ => if x = 0 then 1 else 2) 5 (fun i => if i = 0 then 0 else 5)
        1 0).params ∈
      minimizerCandidates (5 : ℚ) (fun i => if i = 0 then 0 else 5) 1 ∧
    (∀ c ∈ minimizerCandidates (5 : ℚ) (fun i => if i = 0 then 0 else 5) 1,
      (FunctionMinimizer (fun x : ℚ => if x = 0 then 1 else 2) 5
        (fun i => if i = 0 then 0 else 5) 1 0).loss ≤ (if c = 0 then 1 else 2)) ∧
    (FunctionMinimizer (fun x : ℚ => if x = 0 then 1 else 2) 5 (fun i => if i = 0 then 0 else 5)
        1 0).loss =
      (if (FunctionMinimizer (fun x : ℚ => if x = 0 then 1 else 2) 5
        (fun i => if i = 0 then 0 else 5) 1 0).params = 0 then (1 : ℚ) else 2) ∧
    (0 : ℚ) < (FunctionMinimizer (fun x : ℚ => if x = 0 then 1 else 2) 5
        (fun i => if i = 0 then 0 else 5) 1 0).loss ∧
    (crossvalFitFolds [fun x : ℚ => if x = 0 then 1 else 2] (5 : ℚ)
        (fun i => if i = 0 then 0 else 5) 1 0).length = 0 + 1 ∧
    FunctionMinimizer (fun x : ℚ => if x = 0 then 1 else 2) 5 (fun i => if i = 0 then 0 else 5)
        1 0 ∈
      crossvalFitFolds [fun x : ℚ => if x = 0 then 1 else 2] (5 : ℚ)
        (fun i => if i = 0 then 0 else 5) 1 0) :=
  ⟨by decide,
   functionMinimizer_nonconvergence (fun x : ℚ => if x = 0 then 1 else 2) 5
     (fun i => if i = 0 then 0 else 5) 1 0 [] (by decide)⟩

/-! ## Angle difference (`utils.angle_diff`) -/

/-- Wrap a real number into the half-open interval (-pi, pi] by subtracting
the appropriate integer multiple of 2 pi. -/
noncomputable def wrapAngle (d : ℝ) : ℝ :=
  d - 2 * Real.pi * ⌈(d - Real.pi) / (2 * Real.pi)⌉

/-- Modelled from the spec: `utils.angle_diff` (body absent from the
checked-in sources) returns the signed difference between two angles, wrapped
into the interval (-pi, pi] prescribed by the spec. -/
noncomputable def angle_diff (a b : ℝ) : ℝ := wrapAngle (a - b)

theorem wrapAngle_mem (d : ℝ) : wrapAngle d ∈ Set.Ioc (-Real.pi) Real.pi := by
  have hpi : (0 : ℝ) < Real.pi := Real.pi_pos
  have h2pi : (0 : ℝ) < 2 * Real.pi := by linarith
  set k : ℤ := ⌈(d - Real.pi) / (2 * Real.pi)⌉ with hk
  have h1 : d - Real.pi ≤ (k : ℝ) * (2 * Real.pi) :=
    (div_le_iff₀ h2pi).mp (Int.le_ceil _)
  have h2 : ((k : ℝ) - 1) * (2 * Real.pi) < d - Real.pi := by
    refine (lt_div_iff₀ h2pi).mp ?_
    have := Int.ceil_lt_add_one ((d - Real.pi) / (2 * Real.pi))
    rw [← hk] at this
    linarith
  constructor
  · show -Real.pi < d - 2 * Real.pi * k
    nlinarith
  · show d - 2 * Real.pi * k ≤ Real.pi
    nlinarith

theorem wrapAngle_sub_int (d : ℝ) : ∃ m : ℤ, wrapAngle d = d - 2 * Real.pi * m :=
  ⟨⌈(d - Real.pi) / (2 * Real.pi)⌉, rfl⟩

theorem wrapAngle_eq_of_mem (x : ℝ) (hx : x ∈ Set.Ioc (-Real.pi) Real.pi) :
    wrapAngle x = x := by
  have hpi : (0 : ℝ) < Real.pi := Real.pi_pos
  have h2pi : (0 : ℝ) < 2 * Real.pi := by linarith
  have hceil : ⌈(x - Real.pi) / (2 * Real.pi)⌉ = 0 := by
    rw [Int.ceil_eq_zero_iff]
    constructor
    · refine (lt_div_iff₀ h2pi).mpr ?_
      have := hx.1
      linarith
    · refine div_nonpos_of_nonpos_of_nonneg ?_ (le_of_lt h2pi)
      have := hx.2
      linarith
  rw [wrapAngle, hceil]
  push_cast
  ring

theorem wrapAngle_unique (x y : ℝ) (hx : x ∈ Set.Ioc (-Real.pi) Real.pi)
    (hy : y ∈ Set.Ioc (-Real.pi) Real.pi) (m : ℤ) (h : x - y = 2 * Real.pi * m) :
    x = y := by
  have hpi : (0 : ℝ) < Real.pi := Real.pi_pos
  have h2pi : (0 : ℝ) < 2 * Real.pi := by linarith
  have hb1 : x - y < 2 * Real.pi := by
    have := hx.2
    have := hy.1
    linarith
  have hb2 : -(2 * Real.pi) < x - y := by
    have := hx.1
    have := hy.2
    linarith
  rw [h] at hb1 hb2
  have hm1 : (m : ℝ) < 1 := by nlinarith
  have hm2 : (-1 : ℝ) < (m : ℝ) := by nlinarith
  have hm0 : m = 0 := by
    have h1 : m < 1 := by exact_mod_cast hm1
    have h2 : (-1 : ℤ) < m := by exact_mod_cast hm2
    omega
  rw [hm0] at h
  push_cast at h
  linarith

theorem wrapAngle_neg (d : ℝ) (h : wrapAngle d ≠ Real.pi) :
    wrapAngle (-d) = -wrapAngle d := by
  have hmem := wrapAngle_mem d
  have hmem₂ := wrapAngle_mem (-d)
  have hmemn : -wrapAngle d ∈ Set.Ioc (-Real.pi) Real.pi := by
    constructor
    · have := lt_of_le_of_ne hmem.2 h
      linarith
    · have := hmem.1
      linarith
  obtain ⟨m₁, hm₁⟩ := wrapAngle_sub_int d
  obtain ⟨m₂, hm₂⟩ := wrapAngle_sub_int (-d)
  refine wrapAngle_unique _ _ hmem₂ hmemn (-(m₁ + m₂)) ?_
  rw [hm₁, hm₂]
  push_cast
  ring

/-- C9 (amended): for all angles, `angle_diff` lies in (-pi, pi], vanishes on
equal angles, differs from the raw difference by an integer multiple of 2 pi
(the wrap), and is antisymmetric whenever its value is not the boundary value
pi; at the boundary (a - b an odd multiple of pi) both orders return pi, so
the unconditional antisymmetry of the original claim cannot hold there. -/
theorem angle_diff_contract (a b : ℝ) :
    angle_diff a b ∈ Set.Ioc (-Real.pi) Real.pi ∧
    angle_diff a a = 0 ∧
    (∃ m : ℤ, angle_diff a b = a - b - 2 * Real.pi * m) ∧
    (angle_diff a b ≠ Real.pi → angle_diff a b = -angle_diff b a) := by
  refine ⟨wrapAngle_mem _, ?_, wrapAngle_sub_int _, ?_⟩
  · rw [angle_diff, sub_self]
    exact wrapAngle_eq_of_mem 0 ⟨by linarith [Real.pi_pos], le_of_lt Real.pi_pos⟩
  · intro h
    have hw := wrapAngle_neg (a - b) h
    rw [angle_diff, angle_diff, show b - a = -(a - b) by ring, hw, neg_neg]

/-- C9 counterexample: the claimed unconditional antisymmetry fails at the
±pi boundary: `angle_diff π 0` and `angle_diff 0 π` both evaluate to π, and
π ≠ -π. -/
theorem angle_diff_antisymm_counterexample :
    ¬ (angle_diff Real.pi 0 = -angle_diff 0 Real.pi) := by
  have hpi : (0 : ℝ) < Real.pi := Real.pi_pos
  have h1 : angle_diff Real.pi 0 = Real.pi := by
    rw [angle_diff, sub_zero]
    exact wrapAngle_eq_of_mem _ ⟨by linarith, le_refl _⟩
  have h2 : angle_diff 0 Real.pi = Real.pi := by
    rw [angle_diff, zero_sub]
    have hq : (-Real.pi - Real.pi) / (2 * Real.pi) = -1 := by
      rw [div_eq_iff (by positivity : (2 : ℝ) * Real.pi ≠ 0)]
      ring
    rw [wrapAngle, hq]
    have hc : ⌈(-1 : ℝ)⌉ = -1 := by
      have : ((-1 : ℤ) : ℝ) = -1 := by push_cast; ring
      rw [← this, Int.ceil_intCast]
    rw [hc]
    push_cast
    ring
  rw [h1, h2]
  intro h
  linarith

/-- Concrete run of the amended angle-difference contract away from the
boundary: angle_diff 1 0 is not π, and antisymmetry holds there. -/
theorem angle_diff_contract_witness :
    angle_diff 1 0 ≠ Real.pi ∧ angle_diff 1 0 = -angle_diff 0 1 := by
  have hpi3 : (3 : ℝ) < Real.pi := Real.pi_gt_three
  have h1 : angle_diff 1 0 = 1 := by
    rw [angle_diff, sub_zero]
    exact wrapAngle_eq_of_mem 1 ⟨by linarith, by linarith⟩
  have hne : angle_diff 1 0 ≠ Real.pi := by
    rw [h1]
    intro h
    linarith
  exact ⟨hne, (angle_diff_contract 1 0).2.2.2 hne⟩

/-! ## Pickled fit results (`models.ModelA`..`ModelD` and the fitting
pipeline output read back by the table-1 notebook) -/

/-- The four named model configurations of the `models` module: A scoreboard,
B scoreboard with perspective transform, C axon map, D axon map with
perspective transform (all with shape-descriptor loss). -/
inductive ModelName
  | A
  | B
  | C
  | D
deriving DecidableEq

/-- Whether a model is an axon-map variant; those add the axon decay length
`axlambda` to the spatial spread `rho`. -/
def usesAxonMap : ModelName → Bool
  | ModelName.C => true
  | ModelName.D => true
  | _ => false

/-- Numeric code standing for the model-name string stored in the run
metadata. -/
def modelCode : ModelName → ℕ
  | ModelName.A => 0
  | ModelName.B => 1
  | ModelName.C => 2
  | ModelName.D => 3

/-- Lookup in an association-list mapping (the idealisation of a pickled
Python dict). -/
def lookupKey {β : Type} (k : String) (l : List (String × β)) : Option β :=
  (l.find? (fun e => decide (e.1 = k))).map Prod.snd

/-- Modelled from the spec: the best-parameter mapping a fit run stores —
`rho` always, plus `axlambda` exactly for the axon-map models. -/
def modelParams (m : ModelName) (rho axlambda : ℚ) : List (String × ℚ) :=
  if usesAxonMap m then [("rho", rho), ("axlambda", axlambda)]
  else [("rho", rho)]

/-- Modelled from the spec: the persisted fit-result payload of the fitting
pipeline (absent from the checked-in sources; the table-1 notebook unpickles
it) — a 4-tuple (y_true, y_pred, best_params, specifics) in exactly that
order, with best_params a non-empty sequence headed by the parameter mapping
and specifics the run metadata keyed by subject and model name. -/
def pickledFitResult (m : ModelName) (subject : ℕ) (rho axlambda : ℚ)
    (yTrue yPred : List ℚ) :
    List ℚ × List ℚ × List (List (String × ℚ)) × List (String × ℕ) :=
  (yTrue, yPred, [modelParams m rho axlambda],
    [("subject", subject), ("modelname", modelCode m)])

/-- C10: every persisted fit result deserializes to a 4-tuple (y_true,
y_pred, best_params, specifics) in exactly that order; best_params is
non-empty and its first element is a mapping that always contains the key
`rho`, contains `axlambda` exactly for the axon-map models C and D (hence not
for the pure scoreboard model A, nor B), and specifics contains the keys
`subject` and `modelname`. -/
theorem pickledFitResult_schema (m : ModelName) (subject : ℕ) (rho axlambda : ℚ)
    (yTrue yPred : List ℚ) :
    (pickledFitResult m subject rho axlambda yTrue yPred).1 = yTrue ∧
    (pickledFitResult m subject rho axlambda yTrue yPred).2.1 = yPred ∧
    (∃ p₀ ps, (pickledFitResult m subject rho axlambda yTrue yPred).2.2.1 = p₀ :: ps ∧
      (lookupKey "rho" p₀).isSome ∧
      ((lookupKey "axlambda" p₀).isSome ↔ (m = ModelName.C ∨ m = ModelName.D))) ∧
    (lookupKey "subject" (pickledFitResult m subject rho axlambda yTrue yPred).2.2.2).isSome ∧
    (lookupKey "modelname" (pickledFitResult m subject rho axlambda yTrue yPred).2.2.2).isSome := by
  refine ⟨rfl, rfl, ⟨modelParams m rho axlambda, [], rfl, ?_, ?_⟩, ?_, ?_⟩
  · cases m <;> simp [modelParams, usesAxonMap, lookupKey]
  · cases m <;> simp [modelParams, usesAxonMap, lookupKey]
  · simp [pickledFitResult, lookupKey]
  · simp [pickledFitResult, lookupKey]

end ArgusShapes
